import Mathlib

/-!
Verification of the secret-scanning engine (`scanner.go`) and the
entropy/likelihood heuristics (`patterns` package).

Go strings manipulated by the scanner are byte sequences; the scanner only
ever slices them, measures their length and counts newline bytes, so we model
them as symbol sequences `GoStr := List Char` (one element per byte, lengths
and offsets are element counts).  Compiled regular expressions are external
library values; we model a compiled matcher by its observable behaviour, the
function `FindAllStringIndex(s, -1)` returning the list of match index pairs,
together with the validity facts that function guarantees (indices within the
string, start not after end).

The entropy code (`CalculateEntropy`, `IsLikelySecret`) decodes runes, so for
it we use Lean `String` (a list of characters) with `String.utf8ByteSize`
playing the role of Go's byte-counting `len`.
-/

namespace SecretScan

/-- A Go string as scanned by the engine: a sequence of byte-level symbols. -/
abbrev GoStr := List Char

/-- Go slicing `s[a:b]` on a byte sequence. -/
def slice (s : GoStr) (a b : Nat) : GoStr := (s.drop a).take (b - a)

/-- A compiled regular expression, modelled by the behaviour of
`FindAllStringIndex(s, -1)`: the list of `(start, end)` index pairs of the
successive non-overlapping matches. -/
structure GoRegex where
  findAll : GoStr → List (Nat × Nat)

/-- The facts `regexp.FindAllStringIndex` guarantees about the returned index
pairs: each match satisfies `start ≤ end` and lies inside the string. -/
def GoRegex.Valid (re : GoRegex) : Prop :=
  ∀ s : GoStr, ∀ m ∈ re.findAll s, m.1 ≤ m.2 ∧ m.2 ≤ s.length

/-- `scanner.Result`: a detected secret. -/
structure Result where
  type : String
  value : GoStr
  startIndex : Nat
  endIndex : Nat
  lineNumber : Nat
  confidence : ℚ
  description : String
deriving DecidableEq

/-- `calculateConfidence`: baseline 0.8, halved when the match is shorter
than 8 bytes. -/
def calculateConfidence (secret : GoStr) : ℚ :=
  if secret.length < 8 then 0.8 * 0.5 else 0.8

/-- The name → description catalog of `getDescription`. -/
def descriptions : List (String × String) :=
  [("aws_access_key", "Possible AWS access key detected"),
   ("aws_secret", "Possible AWS secret access key detected"),
   ("github_token", "Possible GitHub token detected"),
   ("google_api", "Possible Google API key detected"),
   ("stripe_key", "Possible Stripe API key detected"),
   ("slack_token", "Possible Slack token detected"),
   ("twitter_bearer_token", "Possible Twitter bearer token detected"),
   ("facebook_access_token", "Possible Facebook access token detected"),
   ("azure_storage_account_key", "Possible Azure Storage account key detected"),
   ("digitalocean_access_token", "Possible DigitalOcean access token detected"),
   ("heroku_api_key", "Possible Heroku API key detected"),
   ("sendgrid_api_key", "Possible SendGrid API key detected"),
   ("twilio_api_key", "Possible Twilio API key detected"),
   ("mailgun_api_key", "Possible Mailgun API key detected"),
   ("paypal_bearer_token", "Possible PayPal bearer token detected"),
   ("firebase_api_key", "Possible Firebase API key detected"),
   ("square_access_token", "Possible Square access token detected"),
   ("shopify_access_token", "Possible Shopify access token detected"),
   ("pinterest_access_token", "Possible Pinterest access token detected"),
   ("asana_personal_access_token", "Possible Asana personal access token detected"),
   ("gitlab_personal_access_token", "Possible GitLab personal access token detected"),
   ("twitch_access_token", "Possible Twitch access token detected"),
   ("dropbox_access_token", "Possible Dropbox access token detected"),
   ("microsoft_graph_access_token", "Possible Microsoft Graph access token detected"),
   ("bitbucket_access_token", "Possible Bitbucket access token detected"),
   ("huggingface_token", "Possible Hugging Face token detected"),
   ("rsa_private", "Possible RSA private key detected"),
   ("ssh_private", "Possible SSH private key detected"),
   ("pgp_private", "Possible PGP private key detected"),
   ("generic_private", "Possible generic private key detected"),
   ("dsa_private", "Possible DSA private key detected"),
   ("ec_private", "Possible EC private key detected"),
   ("putty_private", "Possible PuTTY private key detected"),
   ("jwt_private", "Possible JWT private key detected"),
   ("pkcs8_private", "Possible PKCS8 private key detected"),
   ("pem_certificate", "Possible PEM certificate detected"),
   ("pkcs12_private", "Possible PKCS12 private key detected"),
   ("cosign_private", "Possible Cosign private key detected"),
   ("sigstore_private", "Possible Sigstore private key detected"),
   ("complex_password", "Possible complex password detected")]

/-- `getDescription`: catalog lookup with a default. -/
def getDescription (patternType : String) : String :=
  match descriptions.lookup patternType with
  | some desc => desc
  | none => "Unknown secret type detected"

/-- The `Result` built by `scanChunk` for one raw match `m` of pattern
`patternName` inside the chunk placed at global offset `offset`. -/
def matchResult (patternName : String) (chunkText : GoStr) (offset : Nat)
    (m : Nat × Nat) : Result :=
  { type := patternName
    value := slice chunkText m.1 m.2
    startIndex := offset + m.1
    endIndex := offset + m.2
    lineNumber := (chunkText.take m.1).count '\n' + 1
    confidence := calculateConfidence (slice chunkText m.1 m.2)
    description := getDescription patternName }

/-- The raw (pre-deduplication) results accumulated by `scanChunk`'s pattern
loop: for every registered pattern, one `Result` per match. -/
def rawResults (patterns : List (String × GoRegex)) (chunkText : GoStr)
    (offset : Nat) : List Result :=
  patterns.flatMap fun p => (p.2.findAll chunkText).map (matchResult p.1 chunkText offset)

/-- One step of `scanChunk`'s grouping loop over `lineResults`
(`map[int]Result`, modelled as an association list): keep the incoming result
when its line is new or its confidence is strictly higher. -/
def updateLineResults (acc : List (Nat × Result)) (r : Result) :
    List (Nat × Result) :=
  match acc.lookup r.lineNumber with
  | none => acc ++ [(r.lineNumber, r)]
  | some existing =>
      if existing.confidence < r.confidence then
        acc.map fun e => if e.1 = r.lineNumber then (r.lineNumber, r) else e
      else acc

/-- `scanChunk`'s per-line deduplication: group by line number keeping the
highest-confidence result, then flatten the map back to a list. -/
def dedupByLine (rs : List Result) : List Result :=
  (rs.foldl updateLineResults []).map Prod.snd

/-- The error produced when the context is cancelled (`ctx.Err()`). -/
inductive GoErr where
  | cancelled
deriving DecidableEq

/-- `scanChunk`: the cancellation token is checked before each pattern's match
pass (so it only fires when at least one pattern is registered); otherwise
every pattern is matched and the results are deduplicated per line. -/
def scanChunk (cancelled : Bool) (patterns : List (String × GoRegex))
    (chunkText : GoStr) (offset : Nat) : Except GoErr (List Result) :=
  if cancelled && !patterns.isEmpty then .error .cancelled
  else .ok (dedupByLine (rawResults patterns chunkText offset))

/-- A chunk of the input together with its global starting offset. -/
structure Chunk where
  text : GoStr
  offset : Nat
deriving DecidableEq

/-- `const chunkSize = 10000` of `splitIntoChunks`. -/
def chunkSize : Nat := 10000

/-- The loop of `splitIntoChunks`, started at index `i`:
`text[i : min (i+chunkSize) len]` then continue at `i + chunkSize`. -/
def splitFrom (text : GoStr) (i : Nat) : List Chunk :=
  if h : i < text.length then
    { text := (text.drop i).take chunkSize, offset := i } :: splitFrom text (chunkSize + i)
  else []
termination_by text.length - i
decreasing_by
  simp only [chunkSize]
  omega

/-- `splitIntoChunks`. -/
def splitIntoChunks (text : GoStr) : List Chunk := splitFrom text 0

/-- The `Scanner` state: the registered patterns (`map[string]*regexp.Regexp`,
modelled as an association list in insertion order), the result cache
(`sync.Map`, association list keyed by the exact input), and the worker
count. -/
structure Scanner where
  patterns : List (String × GoRegex)
  cache : List (GoStr × List Result)
  workers : Nat

/-- `New()`: empty pattern map, empty cache, 4 workers. -/
def Scanner.new : Scanner := ⟨[], [], 4⟩

/-- Store into a Go map modelled as an association list: replace the entry in
place when the key is present, append otherwise. -/
def storeAssoc {α β : Type} [DecidableEq α] :
    List (α × β) → α → β → List (α × β)
  | [], k, v => [(k, v)]
  | (k', v') :: rest, k, v =>
      if k' = k then (k, v) :: rest else (k', v') :: storeAssoc rest k v

/-- `AddPattern`: compile the pattern source (the compiler of the external
regexp library is passed in as `compile`; `.error` is a compilation failure
carrying its message); on failure return the error leaving the scanner
untouched, on success install the compiled matcher under `name`. -/
def AddPattern (compile : String → Except String GoRegex) (s : Scanner)
    (name pattern : String) : Option String × Scanner :=
  match compile pattern with
  | .error e => (some e, s)
  | .ok compiled => (none, { s with patterns := storeAssoc s.patterns name compiled })

/-- The parallel path's result collection: every chunk is scanned with its
offset, the per-chunk (deduplicated) results are concatenated, and the first
error aborts the whole collection. -/
def collectChunks (cancelled : Bool) (patterns : List (String × GoRegex)) :
    List Chunk → Except GoErr (List Result)
  | [] => .ok []
  | c :: cs =>
      match scanChunk cancelled patterns c.text c.offset with
      | .error e => .error e
      | .ok rs =>
          match collectChunks cancelled patterns cs with
          | .error e => .error e
          | .ok rest => .ok (rs ++ rest)

/-- `Scan`: cancellation check, cache lookup, then the direct path (inputs
shorter than 10000 bytes, one `scanChunk` at offset 0) or the parallel path
(split into chunks, scan each, concatenate); the result set is cached only on
success.  Returns the result (or error) together with the updated scanner
state. -/
def Scan (cancelled : Bool) (s : Scanner) (text : GoStr) :
    Except GoErr (List Result) × Scanner :=
  if cancelled then (.error .cancelled, s)
  else
    match s.cache.lookup text with
    | some cached => (.ok cached, s)
    | none =>
        if text.length < 10000 then
          match scanChunk cancelled s.patterns text 0 with
          | .error e => (.error e, s)
          | .ok results => (.ok results, { s with cache := storeAssoc s.cache text results })
        else
          match collectChunks cancelled s.patterns (splitIntoChunks text) with
          | .error e => (.error e, s)
          | .ok allResults =>
              (.ok allResults, { s with cache := storeAssoc s.cache text allResults })

/-! ### Association-list helper lemmas (Go map model) -/

theorem lookup_storeAssoc_self {α β : Type} [DecidableEq α] [BEq α] [LawfulBEq α]
    (l : List (α × β)) (k : α) (v : β) :
    (storeAssoc l k v).lookup k = some v := by
  induction l with
  | nil => simp [storeAssoc]
  | cons e rest ih =>
    obtain ⟨k', v'⟩ := e
    rw [storeAssoc]
    by_cases h : k' = k
    · subst h
      simp
    · have hbeq : (k == k') = false :=
        beq_eq_false_iff_ne.mpr fun hkk => h hkk.symm
      rw [if_neg h, List.lookup_cons, hbeq, ih]

theorem lookup_storeAssoc_ne {α β : Type} [DecidableEq α] [BEq α] [LawfulBEq α]
    (l : List (α × β)) (k k₂ : α) (v : β) (hne : k₂ ≠ k) :
    (storeAssoc l k v).lookup k₂ = l.lookup k₂ := by
  have hbeqk : (k₂ == k) = false := beq_eq_false_iff_ne.mpr hne
  induction l with
  | nil => simp [storeAssoc, List.lookup_cons, hbeqk]
  | cons e rest ih =>
    obtain ⟨k', v'⟩ := e
    rw [storeAssoc]
    by_cases h : k' = k
    · subst h
      simp [List.lookup_cons, hbeqk]
    · rw [if_neg h, List.lookup_cons, List.lookup_cons, ih]

theorem mem_of_lookup_eq_some {α β : Type} [BEq α] [LawfulBEq α]
    {l : List (α × β)} {k : α} {v : β} (h : l.lookup k = some v) : (k, v) ∈ l := by
  obtain ⟨l₁, l₂, rfl, -⟩ := List.lookup_eq_some_iff.mp h
  simp

/-! ### Chunk splitter lemmas -/

theorem splitFrom_of_ge (text : GoStr) (i : Nat) (h : text.length ≤ i) :
    splitFrom text i = [] := by
  rw [splitFrom]
  simp [Nat.not_lt.mpr h]

theorem splitFrom_of_lt (text : GoStr) (i : Nat) (h : i < text.length) :
    splitFrom text i =
      { text := (text.drop i).take chunkSize, offset := i } ::
        splitFrom text (chunkSize + i) := by
  rw [splitFrom]
  simp [h]

theorem splitFrom_flatten (text : GoStr) (i : Nat) :
    ((splitFrom text i).map Chunk.text).flatten = text.drop i := by
  refine splitFrom.induct text
    (fun j => ((splitFrom text j).map Chunk.text).flatten = text.drop j) ?_ ?_ i
  · intro j hj ih
    rw [splitFrom_of_lt _ j hj]
    simp only [List.map_cons, List.flatten_cons]
    have hdd : text.drop (chunkSize + j) = (text.drop j).drop chunkSize := by
      rw [List.drop_drop, Nat.add_comm]
    rw [ih, hdd]
    exact List.take_append_drop _ _
  · intro j hj
    rw [splitFrom_of_ge _ j (Nat.not_lt.mp hj)]
    simp [List.drop_eq_nil_of_le (Nat.not_lt.mp hj)]

theorem mem_splitFrom (text : GoStr) (i : Nat) :
    ∀ c ∈ splitFrom text i, i ≤ c.offset ∧ c.offset < text.length ∧
      c.text = (text.drop c.offset).take chunkSize := by
  refine splitFrom.induct text
    (fun j => ∀ c ∈ splitFrom text j, j ≤ c.offset ∧ c.offset < text.length ∧
      c.text = (text.drop c.offset).take chunkSize) ?_ ?_ i
  · intro j hj ih c hc
    rw [splitFrom_of_lt _ j hj] at hc
    rcases List.mem_cons.mp hc with rfl | hc
    · exact ⟨Nat.le_refl _, hj, rfl⟩
    · have h2 := ih c hc
      exact ⟨by omega, h2.2.1, h2.2.2⟩
  · intro j hj c hc
    rw [splitFrom_of_ge _ j (Nat.not_lt.mp hj)] at hc
    simp at hc

theorem splitFrom_dropLast (text : GoStr) (i : Nat) :
    ∀ c ∈ (splitFrom text i).dropLast, c.text.length = chunkSize := by
  refine splitFrom.induct text
    (fun j => ∀ c ∈ (splitFrom text j).dropLast, c.text.length = chunkSize) ?_ ?_ i
  · intro j hj ih c hc
    rw [splitFrom_of_lt _ j hj] at hc
    cases h2 : splitFrom text (chunkSize + j) with
    | nil => rw [h2] at hc; simp at hc
    | cons d ds =>
      rw [h2, List.dropLast_cons₂] at hc
      rcases List.mem_cons.mp hc with rfl | hc
      · have hlt : chunkSize + j < text.length := by
          by_contra hge
          rw [splitFrom_of_ge text (chunkSize + j) (by omega)] at h2
          exact List.noConfusion h2
        simp only [List.length_take, List.length_drop]
        omega
      · rw [h2] at ih
        exact ih c hc
  · intro j hj c hc
    rw [splitFrom_of_ge _ j (Nat.not_lt.mp hj)] at hc
    simp at hc

theorem splitFrom_chain (text : GoStr) (i : Nat) :
    (splitFrom text i).Chain' (fun a b => b.offset = a.offset + a.text.length) := by
  refine splitFrom.induct text
    (fun j => (splitFrom text j).Chain'
      (fun a b => b.offset = a.offset + a.text.length)) ?_ ?_ i
  · intro j hj ih
    rw [splitFrom_of_lt _ j hj]
    refine List.chain'_cons'.mpr ⟨?_, ih⟩
    intro b hb
    cases h2 : splitFrom text (chunkSize + j) with
    | nil => rw [h2] at hb; simp at hb
    | cons d ds =>
      rw [h2] at hb
      simp only [List.head?_cons, Option.mem_def, Option.some.injEq] at hb
      subst hb
      have hlt : chunkSize + j < text.length := by
        by_contra hge
        rw [splitFrom_of_ge text (chunkSize + j) (by omega)] at h2
        exact List.noConfusion h2
      rw [splitFrom_of_lt text (chunkSize + j) hlt] at h2
      injection h2 with h3 h4
      rw [← h3]
      simp only [List.length_take, List.length_drop]
      omega
  · intro j hj
    rw [splitFrom_of_ge _ j (Nat.not_lt.mp hj)]
    exact List.chain'_nil

/-- The portion of the input covered by a chunk stays inside the input. -/
theorem chunk_span_le (text : GoStr) (c : Chunk) (hc : c ∈ splitIntoChunks text) :
    c.offset + c.text.length ≤ text.length := by
  obtain ⟨-, hlt, htext⟩ := mem_splitFrom text 0 c hc
  rw [htext]
  simp only [List.length_take, List.length_drop]
  omega

/-- C9: `splitIntoChunks` returns the chunks of the text in input order:
contiguous and non-overlapping (each chunk starts exactly where the previous
one ended), each at most 10000 bytes, each chunk's `offset` equal to its
starting position (its text is the corresponding slice of the input), with
every chunk but the last of full size, and the concatenation of all chunk
texts restores the input. -/
theorem splitIntoChunks_spec (text : GoStr) :
    ((splitIntoChunks text).map Chunk.text).flatten = text ∧
    (∀ c ∈ splitIntoChunks text, c.text.length ≤ 10000 ∧
      c.text = slice text c.offset (c.offset + c.text.length)) ∧
    (∀ c ∈ (splitIntoChunks text).dropLast, c.text.length = 10000) ∧
    (splitIntoChunks text).Chain' (fun a b => b.offset = a.offset + a.text.length) := by
  refine ⟨?_, ?_, ?_, ?_⟩
  · rw [splitIntoChunks, splitFrom_flatten]
    exact List.drop_zero text
  · intro c hc
    obtain ⟨-, hlt, htext⟩ := mem_splitFrom text 0 c hc
    constructor
    · rw [htext]
      simpa [chunkSize] using List.length_take_le chunkSize (text.drop c.offset)
    · rw [slice, Nat.add_sub_cancel_left]
      conv_lhs => rw [htext]
      rw [htext, List.length_take, ← List.take_take, List.take_length]
  · intro c hc
    have h2 := splitFrom_dropLast text 0 c hc
    rw [chunkSize] at h2
    exact h2
  · exact splitFrom_chain text 0

/-! ### Deduplication fold invariant -/

/-- Two entries of a `(Nat × Result)` map with pairwise-distinct keys and
equal keys are the same entry. -/
theorem eq_of_mem_nodupKeys {acc : List (Nat × Result)}
    (hnd : (acc.map Prod.fst).Nodup) {e e' : Nat × Result}
    (he : e ∈ acc) (he' : e' ∈ acc) (hk : e.1 = e'.1) : e = e' := by
  induction acc with
  | nil => simp at he
  | cons a rest ih =>
    rw [List.map_cons, List.nodup_cons] at hnd
    rcases List.mem_cons.mp he with rfl | he2
    · rcases List.mem_cons.mp he' with rfl | he2'
      · rfl
      · refine absurd ?_ hnd.1
        rw [hk]
        exact List.mem_map_of_mem Prod.fst he2'
    · rcases List.mem_cons.mp he' with rfl | he2'
      · refine absurd ?_ hnd.1
        rw [← hk]
        exact List.mem_map_of_mem Prod.fst he2
      · exact ih hnd.2 he2 he2'

/-- Invariant of `scanChunk`'s grouping fold: after processing the results
`ps`, the accumulator has pairwise-distinct line keys, each entry is one of
the processed results keyed by its own line number and carrying the maximal
confidence among the processed results of that line, and every processed
result's line has an entry. -/
def GoodAcc (ps : List Result) (acc : List (Nat × Result)) : Prop :=
  (acc.map Prod.fst).Nodup ∧
  (∀ e ∈ acc, e.2 ∈ ps ∧ e.2.lineNumber = e.1 ∧
    ∀ r ∈ ps, r.lineNumber = e.1 → r.confidence ≤ e.2.confidence) ∧
  (∀ r ∈ ps, r.lineNumber ∈ acc.map Prod.fst)

theorem goodAcc_update {ps : List Result} {acc : List (Nat × Result)} (r : Result)
    (h : GoodAcc ps acc) : GoodAcc (ps ++ [r]) (updateLineResults acc r) := by
  obtain ⟨hnd, hent, hcov⟩ := h
  cases hl : acc.lookup r.lineNumber with
  | none =>
    simp only [updateLineResults, hl]
    have hnotin : r.lineNumber ∉ acc.map Prod.fst := by
      intro hmem
      obtain ⟨e, he, hke⟩ := List.mem_map.mp hmem
      have h2 := List.lookup_eq_none_iff.mp hl e he
      simp [hke] at h2
    refine ⟨?_, ?_, ?_⟩
    · rw [List.map_append]
      simp only [List.map_cons, List.map_nil]
      refine List.Nodup.append hnd (List.nodup_singleton _) ?_
      intro a ha hax
      exact hnotin (by rwa [List.mem_singleton.mp hax] at ha)
    · intro e he
      rcases List.mem_append.mp he with he2 | he2
      · obtain ⟨hmem, hline, hmax⟩ := hent e he2
        refine ⟨List.mem_append_left _ hmem, hline, ?_⟩
        intro r' hr' hl'
        rcases List.mem_append.mp hr' with hr'2 | hr'2
        · exact hmax r' hr'2 hl'
        · rw [List.mem_singleton.mp hr'2] at hl'
          refine absurd ?_ hnotin
          rw [hl']
          exact List.mem_map_of_mem Prod.fst he2
      · rw [List.mem_singleton.mp he2]
        refine ⟨List.mem_append_right _ (List.mem_singleton.mpr rfl), rfl, ?_⟩
        intro r' hr' hl'
        have hl2 : r'.lineNumber = r.lineNumber := hl'
        rcases List.mem_append.mp hr' with hr'2 | hr'2
        · refine absurd ?_ hnotin
          rw [← hl2]
          exact hcov r' hr'2
        · rw [List.mem_singleton.mp hr'2]
    · intro r' hr'
      rw [List.map_append]
      rcases List.mem_append.mp hr' with hr'2 | hr'2
      · exact List.mem_append_left _ (hcov r' hr'2)
      · rw [List.mem_singleton.mp hr'2]
        exact List.mem_append_right _ (by simp)
  | some existing =>
    simp only [updateLineResults, hl]
    have hmem_ex : (r.lineNumber, existing) ∈ acc := mem_of_lookup_eq_some hl
    obtain ⟨hex_mem, hex_line, hex_max⟩ := hent _ hmem_ex
    by_cases hc : existing.confidence < r.confidence
    · rw [if_pos hc]
      have hkeys : ((acc.map fun e => if e.1 = r.lineNumber then (r.lineNumber, r) else e).map
          Prod.fst) = acc.map Prod.fst := by
        rw [List.map_map]
        refine List.map_congr_left ?_
        intro e he
        by_cases he1 : e.1 = r.lineNumber
        · simp [he1]
        · simp [he1]
      refine ⟨hkeys ▸ hnd, ?_, ?_⟩
      · intro e' he'
        obtain ⟨e, he, rfl⟩ := List.mem_map.mp he'
        by_cases he1 : e.1 = r.lineNumber
        · rw [if_pos he1]
          refine ⟨List.mem_append_right _ (List.mem_singleton.mpr rfl), rfl, ?_⟩
          intro r' hr' hl'
          have hl2 : r'.lineNumber = r.lineNumber := hl'
          rcases List.mem_append.mp hr' with hr'2 | hr'2
          · exact le_of_lt (lt_of_le_of_lt (hex_max r' hr'2 hl2) hc)
          · rw [List.mem_singleton.mp hr'2]
        · rw [if_neg he1]
          obtain ⟨hmem, hline, hmax⟩ := hent e he
          refine ⟨List.mem_append_left _ hmem, hline, ?_⟩
          intro r' hr' hl'
          rcases List.mem_append.mp hr' with hr'2 | hr'2
          · exact hmax r' hr'2 hl'
          · rw [List.mem_singleton.mp hr'2] at hl'
            exact absurd hl'.symm he1
      · intro r' hr'
        rw [hkeys]
        rcases List.mem_append.mp hr' with hr'2 | hr'2
        · exact hcov r' hr'2
        · rw [List.mem_singleton.mp hr'2]
          exact List.mem_map_of_mem Prod.fst hmem_ex
    · rw [if_neg hc]
      refine ⟨hnd, ?_, ?_⟩
      · intro e he
        obtain ⟨hmem, hline, hmax⟩ := hent e he
        refine ⟨List.mem_append_left _ hmem, hline, ?_⟩
        intro r' hr' hl'
        rcases List.mem_append.mp hr' with hr'2 | hr'2
        · exact hmax r' hr'2 hl'
        · rw [List.mem_singleton.mp hr'2] at hl' ⊢
          have hee : e = (r.lineNumber, existing) :=
            eq_of_mem_nodupKeys hnd he hmem_ex hl'.symm
          rw [hee]
          exact le_of_not_lt hc
      · intro r' hr'
        rcases List.mem_append.mp hr' with hr'2 | hr'2
        · exact hcov r' hr'2
        · rw [List.mem_singleton.mp hr'2]
          exact List.mem_map_of_mem Prod.fst hmem_ex

theorem goodAcc_foldl (rs : List Result) : ∀ (ps : List Result)
    (acc : List (Nat × Result)), GoodAcc ps acc →
    GoodAcc (ps ++ rs) (rs.foldl updateLineResults acc) := by
  induction rs with
  | nil =>
    intro ps acc h
    simpa using h
  | cons r rest ih =>
    intro ps acc h
    have h1 := goodAcc_update r h
    have h2 := ih (ps ++ [r]) _ h1
    rw [List.append_assoc] at h2
    simpa using h2

theorem dedup_goodAcc (rs : List Result) :
    GoodAcc rs (rs.foldl updateLineResults []) := by
  have h := goodAcc_foldl rs [] [] ⟨by simp, by simp, by simp⟩
  simpa using h

theorem mem_dedupByLine {rs : List Result} {r : Result} (h : r ∈ dedupByLine rs) :
    r ∈ rs ∧ ∀ r' ∈ rs, r'.lineNumber = r.lineNumber →
      r'.confidence ≤ r.confidence := by
  obtain ⟨hnd, hent, hcov⟩ := dedup_goodAcc rs
  rw [dedupByLine] at h
  obtain ⟨e, he, rfl⟩ := List.mem_map.mp h
  obtain ⟨hmem, hline, hmax⟩ := hent e he
  exact ⟨hmem, fun r' hr' hl' => hmax r' hr' (hline ▸ hl')⟩

theorem dedupByLine_countP (rs : List Result) (l : Nat) :
    (dedupByLine rs).countP (fun r => r.lineNumber == l) ≤ 1 := by
  obtain ⟨hnd, hent, hcov⟩ := dedup_goodAcc rs
  rw [dedupByLine, List.countP_map]
  have hcong : ((rs.foldl updateLineResults []).countP
        ((fun r => r.lineNumber == l) ∘ Prod.snd)) =
      ((rs.foldl updateLineResults []).map Prod.fst).count l := by
    rw [List.count, List.countP_map]
    refine List.countP_congr ?_
    intro e he
    obtain ⟨-, hline, -⟩ := hent e he
    simp [Function.comp, hline]
  rw [hcong]
  exact List.nodup_iff_count_le_one.mp hnd l

theorem dedupByLine_cover {rs : List Result} {r' : Result} (h : r' ∈ rs) :
    0 < (dedupByLine rs).countP (fun r => r.lineNumber == r'.lineNumber) := by
  obtain ⟨hnd, hent, hcov⟩ := dedup_goodAcc rs
  have hkey := hcov r' h
  obtain ⟨e, he, hke⟩ := List.mem_map.mp hkey
  rw [dedupByLine, List.countP_map]
  rw [List.countP_pos]
  refine ⟨e, he, ?_⟩
  obtain ⟨-, hline, -⟩ := hent e he
  simp [Function.comp, hline, hke]

/-- C2: `scanChunk` (with a live context) keeps at most one finding per
chunk-relative line number; every kept finding is one of the raw pattern
matches and carries the maximal confidence among the raw matches starting on
its line; and every line that received at least one raw match keeps exactly
one finding (so two matches by different patterns on one line yield exactly
one surviving finding). -/
theorem scanChunk_dedup_spec (patterns : List (String × GoRegex))
    (chunkText : GoStr) (offset : Nat) (out : List Result)
    (h : scanChunk false patterns chunkText offset = .ok out) :
    (∀ l : Nat, out.countP (fun r => r.lineNumber == l) ≤ 1) ∧
    (∀ r ∈ out, r ∈ rawResults patterns chunkText offset ∧
      ∀ r' ∈ rawResults patterns chunkText offset,
        r'.lineNumber = r.lineNumber → r'.confidence ≤ r.confidence) ∧
    (∀ r' ∈ rawResults patterns chunkText offset,
      out.countP (fun r => r.lineNumber == r'.lineNumber) = 1) := by
  have hout : out = dedupByLine (rawResults patterns chunkText offset) := by
    rw [scanChunk] at h
    simp at h
    exact h.symm
  subst hout
  refine ⟨fun l => dedupByLine_countP _ l, fun r hr => mem_dedupByLine hr, ?_⟩
  intro r' hr'
  exact Nat.le_antisymm (dedupByLine_countP _ _) (dedupByLine_cover hr')

/-! ### Concrete matchers used to exercise the scanner -/

/-- A compiled matcher behaving like the compilation of the empty pattern
source `""`: it matches the empty string at every position of the input,
which is what `FindAllStringIndex` reports for that pattern. -/
def emptyRegex : GoRegex :=
  ⟨fun s => (List.range (s.length + 1)).map fun i => (i, i)⟩

theorem emptyRegex_valid : emptyRegex.Valid := by
  intro s m hm
  rw [emptyRegex] at hm
  obtain ⟨i, hi, rfl⟩ := List.mem_map.mp hm
  rw [List.mem_range] at hi
  exact ⟨Nat.le_refl _, by omega⟩

/-- A scanner with the empty pattern registered under the name "e". -/
def cexScanner : Scanner := ⟨[("e", emptyRegex)], [], 4⟩

/-- The single finding surviving a scan of "b" with `cexScanner`. -/
def cexFinding : Result := matchResult "e" ['b'] 0 (0, 0)

theorem updateLineResults_nil (r : Result) :
    updateLineResults [] r = [(r.lineNumber, r)] := rfl

theorem dedupByLine_pair (r0 r1 : Result) (h : r1.lineNumber = r0.lineNumber)
    (hc : ¬ r0.confidence < r1.confidence) : dedupByLine [r0, r1] = [r0] := by
  unfold dedupByLine
  simp only [List.foldl, updateLineResults_nil]
  rw [updateLineResults]
  simp only [h, List.lookup_cons_self]
  rw [if_neg hc]
  rfl

theorem scanChunk_false (patterns : List (String × GoRegex)) (chunkText : GoStr)
    (offset : Nat) :
    scanChunk false patterns chunkText offset =
      .ok (dedupByLine (rawResults patterns chunkText offset)) := by
  simp [scanChunk]

theorem cex_scanChunk :
    scanChunk false [("e", emptyRegex)] ['b'] 0 = .ok [cexFinding] := by
  have h1 : rawResults [("e", emptyRegex)] ['b'] 0 =
      [cexFinding, matchResult "e" ['b'] 0 (1, 1)] := rfl
  have hc : ¬ cexFinding.confidence < (matchResult "e" ['b'] 0 (1, 1)).confidence := by
    rw [show (matchResult "e" ['b'] 0 (1, 1)).confidence = cexFinding.confidence from rfl]
    exact lt_irrefl _
  rw [scanChunk_false, h1,
    dedupByLine_pair cexFinding (matchResult "e" ['b'] 0 (1, 1)) rfl hc]

theorem cex_Scan : (Scan false cexScanner ['b']).1 = .ok [cexFinding] := by
  rw [Scan]
  simp only [Bool.false_eq_true, if_false, cexScanner]
  simp only [List.lookup_nil]
  rw [if_pos (show (['b'] : GoStr).length < 10000 by norm_num)]
  rw [cex_scanChunk]

/-- Witness for C2: a concrete chunk scan where two raw matches land on the
same line and exactly one finding survives. -/
theorem scanChunk_dedup_spec_witness :
    scanChunk false [("e", emptyRegex)] ['b'] 0 = .ok [cexFinding] ∧
    ([cexFinding].countP (fun r => r.lineNumber == 1) ≤ 1) := by
  refine ⟨cex_scanChunk, ?_⟩
  exact (scanChunk_dedup_spec [("e", emptyRegex)] ['b'] 0 [cexFinding] cex_scanChunk).1 1

/-! ### Offset bounds and value invariants of the scan paths -/

/-- All registered matchers report only in-bounds matches. -/
def ValidPatterns (patterns : List (String × GoRegex)) : Prop :=
  ∀ p ∈ patterns, p.2.Valid

/-- Every cached result set satisfies the offset bounds for its key. -/
def CacheBounds (s : Scanner) : Prop :=
  ∀ e ∈ s.cache, ∀ r ∈ e.2, r.startIndex ≤ r.endIndex ∧ r.endIndex ≤ e.1.length

/-- Every cached result's value is the corresponding slice of its key. -/
def CacheValues (s : Scanner) : Prop :=
  ∀ e ∈ s.cache, ∀ r ∈ e.2, r.value = slice e.1 r.startIndex r.endIndex

theorem rawResults_mem_elim {patterns : List (String × GoRegex)} {chunkText : GoStr}
    {offset : Nat} {r : Result} (hr : r ∈ rawResults patterns chunkText offset) :
    ∃ p ∈ patterns, ∃ m ∈ p.2.findAll chunkText,
      r = matchResult p.1 chunkText offset m := by
  rw [rawResults] at hr
  obtain ⟨p, hp, hr2⟩ := List.mem_flatMap.mp hr
  obtain ⟨m, hm, rfl⟩ := List.mem_map.mp hr2
  exact ⟨p, hp, m, hm, rfl⟩

theorem rawResults_bounds {patterns : List (String × GoRegex)} {chunkText : GoStr}
    {offset : Nat} (hval : ValidPatterns patterns) {r : Result}
    (hr : r ∈ rawResults patterns chunkText offset) :
    r.startIndex ≤ r.endIndex ∧ r.endIndex ≤ offset + chunkText.length := by
  obtain ⟨p, hp, m, hm, rfl⟩ := rawResults_mem_elim hr
  obtain ⟨h1, h2⟩ := hval p hp chunkText m hm
  exact ⟨by simp only [matchResult]; omega, by simp only [matchResult]; omega⟩

theorem slice_take_drop (text : GoStr) (offset k a b : Nat)
    (hb : b ≤ ((text.drop offset).take k).length) :
    slice ((text.drop offset).take k) a b = slice text (offset + a) (offset + b) := by
  rw [slice, slice, List.drop_take, List.drop_drop, List.take_take,
    Nat.add_sub_add_left]
  rw [List.length_take, List.length_drop] at hb
  have hmin : min (b - a) (k - a) = b - a := by omega
  rw [hmin]

theorem rawResults_value {patterns : List (String × GoRegex)} {text chunkText : GoStr}
    {offset k : Nat} (hval : ValidPatterns patterns)
    (htext : chunkText = (text.drop offset).take k) {r : Result}
    (hr : r ∈ rawResults patterns chunkText offset) :
    r.value = slice text r.startIndex r.endIndex := by
  obtain ⟨p, hp, m, hm, rfl⟩ := rawResults_mem_elim hr
  obtain ⟨h1, h2⟩ := hval p hp chunkText m hm
  show slice chunkText m.1 m.2 = slice text (offset + m.1) (offset + m.2)
  rw [htext] at h2 ⊢
  exact slice_take_drop text offset k m.1 m.2 h2

/-- Elimination principle for a successful parallel-path collection: every
collected result comes from the per-chunk deduplicated results of one of the
chunks. -/
theorem collectChunks_ok_elim {cancelled : Bool} {patterns : List (String × GoRegex)}
    {chunks : List Chunk} {res : List Result}
    (h : collectChunks cancelled patterns chunks = .ok res) :
    ∀ r ∈ res, ∃ c ∈ chunks,
      r ∈ dedupByLine (rawResults patterns c.text c.offset) := by
  induction chunks generalizing res with
  | nil =>
    rw [collectChunks] at h
    obtain rfl : ([] : List Result) = res := by simpa using h
    intro r hr
    simp at hr
  | cons c cs ih =>
    rw [collectChunks] at h
    cases hsc : scanChunk cancelled patterns c.text c.offset with
    | error e => rw [hsc] at h; simp at h
    | ok rs =>
      rw [hsc] at h
      cases hcc : collectChunks cancelled patterns cs with
      | error e => rw [hcc] at h; simp at h
      | ok rest =>
        rw [hcc] at h
        simp only [Except.ok.injEq] at h
        subst h
        intro r hr
        rcases List.mem_append.mp hr with hr2 | hr2
        · refine ⟨c, List.mem_cons_self _ _, ?_⟩
          have hdedup : rs = dedupByLine (rawResults patterns c.text c.offset) := by
            rcases hb : cancelled with _ | _
          
            · rw [hb] at hsc
              rw [scanChunk_false] at hsc
              simpa using hsc.symm
            · rw [hb] at hsc
              rw [scanChunk] at hsc
              by_cases hp : patterns.isEmpty
              · simp [hp] at hsc
                simpa using hsc.symm
              · simp [hp] at hsc
          rw [← hdedup]
          exact hr2
        · obtain ⟨c', hc', hr3⟩ := ih hcc r hr2
          exact ⟨c', List.mem_cons_of_mem _ hc', hr3⟩

/-- Case analysis of a successful live (non-cancelled) `Scan`: a cache hit
leaves the scanner unchanged, the direct path deduplicates one whole-input
chunk scan, the parallel path collects over the chunks; both scan paths store
the result set in the cache. -/
theorem Scan_ok_elim {s : Scanner} {text : GoStr} {res : List Result} {s' : Scanner}
    (h : Scan false s text = (.ok res, s')) :
    (s.cache.lookup text = some res ∧ s' = s) ∨
    (s.cache.lookup text = none ∧ text.length < 10000 ∧
      res = dedupByLine (rawResults s.patterns text 0) ∧
      s' = { s with cache := storeAssoc s.cache text res }) ∨
    (s.cache.lookup text = none ∧ ¬ text.length < 10000 ∧
      collectChunks false s.patterns (splitIntoChunks text) = .ok res ∧
      s' = { s with cache := storeAssoc s.cache text res }) := by
  rw [Scan] at h
  simp only [Bool.false_eq_true, if_false] at h
  cases hcl : s.cache.lookup text with
  | some cached =>
    rw [hcl] at h
    simp only [Prod.mk.injEq, Except.ok.injEq] at h
    exact Or.inl ⟨by rw [h.1], h.2.symm⟩
  | none =>
    rw [hcl] at h
    by_cases hlen : text.length < 10000
    · rw [if_pos hlen, scanChunk_false] at h
      simp only [Prod.mk.injEq, Except.ok.injEq] at h
      refine Or.inr (Or.inl ⟨rfl, hlen, h.1.symm, ?_⟩)
      rw [← h.2, h.1]
    · rw [if_neg hlen] at h
      cases hpc : collectChunks false s.patterns (splitIntoChunks text) with
      | error e => rw [hpc] at h; simp at h
      | ok allResults =>
        rw [hpc] at h
        simp only [Prod.mk.injEq, Except.ok.injEq] at h
        refine Or.inr (Or.inr ⟨rfl, hlen, by rw [h.1], ?_⟩)
        rw [← h.2, h.1]

/-- C1 (amended): when the registered matchers only report in-bounds matches
and the cache is bounds-consistent, every finding of a successful `Scan`
satisfies `0 ≤ start ≤ end ≤ length input`.  (The strict `start < end` of the
original claim fails for patterns matching the empty string, see the
counterexample.) -/
theorem Scan_offsets (s : Scanner) (text : GoStr) (res : List Result) (s' : Scanner)
    (hval : ValidPatterns s.patterns) (hcache : CacheBounds s)
    (h : Scan false s text = (.ok res, s')) :
    ∀ r ∈ res, 0 ≤ r.startIndex ∧ r.startIndex ≤ r.endIndex ∧
      r.endIndex ≤ text.length := by
  intro r hr
  refine ⟨Nat.zero_le _, ?_⟩
  rcases Scan_ok_elim h with ⟨hcl, -⟩ | ⟨-, -, hres, -⟩ | ⟨-, -, hpc, -⟩
  · exact hcache (text, res) (mem_of_lookup_eq_some hcl) r hr
  · rw [hres] at hr
    have hraw := (mem_dedupByLine hr).1
    have hb := rawResults_bounds hval hraw
    omega
  · obtain ⟨c, hc, hr2⟩ := collectChunks_ok_elim hpc r hr
    have hraw := (mem_dedupByLine hr2).1
    have hb := rawResults_bounds hval hraw
    have hspan := chunk_span_le text c hc
    omega

/-- C1 counterexample: the empty pattern source compiles, and scanning "b"
with it succeeds with a finding whose start index equals its end index, so
`start < end` does not hold for every finding of a successful scan. -/
theorem Scan_offsets_strict_cex :
    (Scan false cexScanner ['b']).1 = .ok [cexFinding] ∧
    ¬ (cexFinding.startIndex < cexFinding.endIndex) :=
  ⟨cex_Scan, by decide⟩

/-- Witness for the amended C1 on a concrete scan. -/
theorem Scan_offsets_witness :
    0 ≤ cexFinding.startIndex ∧ cexFinding.startIndex ≤ cexFinding.endIndex ∧
      cexFinding.endIndex ≤ (['b'] : GoStr).length := by
  have hscan : Scan false cexScanner ['b'] =
      (.ok [cexFinding], (Scan false cexScanner ['b']).2) := by
    rw [← cex_Scan]
  have hval : ValidPatterns cexScanner.patterns := by
    intro p hp
    rw [List.mem_singleton.mp hp]
    exact emptyRegex_valid
  have hcache : CacheBounds cexScanner := by
    intro e he
    simp [cexScanner] at he
  exact Scan_offsets cexScanner ['b'] [cexFinding] _ hval hcache hscan cexFinding
    (List.mem_singleton.mpr rfl)

/-- C10: when the registered matchers only report in-bounds matches and the
cache is value-consistent, every finding of a successful `Scan` carries as its
`Value` exactly the slice `input[start:end]` of the original input. -/
theorem Scan_values (s : Scanner) (text : GoStr) (res : List Result) (s' : Scanner)
    (hval : ValidPatterns s.patterns) (hcache : CacheValues s)
    (h : Scan false s text = (.ok res, s')) :
    ∀ r ∈ res, r.value = slice text r.startIndex r.endIndex := by
  intro r hr
  rcases Scan_ok_elim h with ⟨hcl, -⟩ | ⟨-, -, hres, -⟩ | ⟨-, -, hpc, -⟩
  · exact hcache (text, res) (mem_of_lookup_eq_some hcl) r hr
  · rw [hres] at hr
    have hraw := (mem_dedupByLine hr).1
    have htext : text = (text.drop 0).take text.length := by simp
    exact rawResults_value hval htext hraw
  · obtain ⟨c, hc, hr2⟩ := collectChunks_ok_elim hpc r hr
    have hraw := (mem_dedupByLine hr2).1
    obtain ⟨-, -, htext⟩ := mem_splitFrom text 0 c hc
    exact rawResults_value hval htext hraw

/-- Witness for C10 on a concrete scan. -/
theorem Scan_values_witness :
    cexFinding.value = slice ['b'] cexFinding.startIndex cexFinding.endIndex := by
  have hscan : Scan false cexScanner ['b'] =
      (.ok [cexFinding], (Scan false cexScanner ['b']).2) := by
    rw [← cex_Scan]
  have hval : ValidPatterns cexScanner.patterns := by
    intro p hp
    rw [List.mem_singleton.mp hp]
    exact emptyRegex_valid
  have hcache : CacheValues cexScanner := by
    intro e he
    simp [cexScanner] at he
  exact Scan_values cexScanner ['b'] [cexFinding] _ hval hcache hscan cexFinding
    (List.mem_singleton.mpr rfl)

/-- C3: a cancellation token already cancelled before `Scan` is called makes
`Scan` return the cancellation error and no findings, for every scanner state
and every input, leaving the scanner unchanged. -/
theorem Scan_cancelled_before (s : Scanner) (text : GoStr) :
    Scan true s text = (.error .cancelled, s) := by
  rw [Scan]
  simp

theorem Scan_cache_hit {s : Scanner} {text : GoStr} {res : List Result}
    (hcl : s.cache.lookup text = some res) :
    Scan false s text = (.ok res, s) := by
  rw [Scan]
  simp only [Bool.false_eq_true, if_false]
  rw [hcl]

/-- C4: idempotence through the result cache: if a live `Scan` succeeds with
result set `res` and final state `s₁`, then scanning the exact same input
again (with the pattern set unchanged, as `Scan` never modifies it) succeeds
with the very same result set, served from the cache with the state
unchanged. -/
theorem Scan_idempotent (s : Scanner) (text : GoStr) (res : List Result)
    (s₁ : Scanner) (h : Scan false s text = (.ok res, s₁)) :
    Scan false s₁ text = (.ok res, s₁) := by
  rcases Scan_ok_elim h with ⟨hcl, rfl⟩ | ⟨-, -, -, rfl⟩ | ⟨-, -, -, rfl⟩
  · exact Scan_cache_hit hcl
  · exact Scan_cache_hit (lookup_storeAssoc_self _ _ _)
  · exact Scan_cache_hit (lookup_storeAssoc_self _ _ _)

/-- Witness for C4 on a concrete scan. -/
theorem Scan_idempotent_witness :
    Scan false ((Scan false cexScanner ['b']).2) ['b'] =
      (.ok [cexFinding], (Scan false cexScanner ['b']).2) := by
  have hscan : Scan false cexScanner ['b'] =
      (.ok [cexFinding], (Scan false cexScanner ['b']).2) := by
    rw [← cex_Scan]
  exact Scan_idempotent cexScanner ['b'] [cexFinding] _ hscan

/-- C7: `AddPattern` either reports the compilation error leaving the whole
scanner (in particular its pattern map) unchanged, or installs the compiled
matcher under the given name, replacing any previous matcher of that name and
touching nothing else. -/
theorem AddPattern_spec (compile : String → Except String GoRegex) (s : Scanner)
    (name pattern : String) :
    (∀ e, compile pattern = .error e →
      AddPattern compile s name pattern = (some e, s)) ∧
    (∀ re, compile pattern = .ok re →
      (AddPattern compile s name pattern).1 = none ∧
      (AddPattern compile s name pattern).2.patterns.lookup name = some re ∧
      (∀ other, other ≠ name →
        (AddPattern compile s name pattern).2.patterns.lookup other =
          s.patterns.lookup other) ∧
      (AddPattern compile s name pattern).2.cache = s.cache ∧
      (AddPattern compile s name pattern).2.workers = s.workers) := by
  constructor
  · intro e he
    rw [AddPattern, he]
  · intro re hre
    have hA : AddPattern compile s name pattern =
        (none, { s with patterns := storeAssoc s.patterns name re }) := by
      rw [AddPattern, hre]
    rw [hA]
    exact ⟨rfl, lookup_storeAssoc_self _ _ _,
      fun other ho => lookup_storeAssoc_ne _ _ _ _ ho, rfl, rfl⟩

/-- Witness for C7: a failing compilation leaves the fresh scanner unchanged,
and a successful compilation installs the matcher under its name. -/
theorem AddPattern_spec_witness :
    AddPattern (fun _ => .error "invalid") Scanner.new "n" "(" =
      (some "invalid", Scanner.new) ∧
    ((AddPattern (fun _ => .ok emptyRegex) Scanner.new "e" "").2.patterns.lookup "e" =
      some emptyRegex) :=
  ⟨(AddPattern_spec (fun _ => .error "invalid") Scanner.new "n" "(").1 "invalid" rfl,
    ((AddPattern_spec (fun _ => .ok emptyRegex) Scanner.new "e" "").2 emptyRegex rfl).2.1⟩

/-- The pre-deduplication matches found by the direct path: one `scanChunk`
pattern pass over the whole input at offset 0. -/
def directRaw (patterns : List (String × GoRegex)) (text : GoStr) : List Result :=
  rawResults patterns text 0

/-- The pre-deduplication matches found by the (forced) parallel path: the
pattern passes of the per-chunk scans, with each chunk's global offset. -/
def parallelRaw (patterns : List (String × GoRegex)) (text : GoStr) : List Result :=
  (splitIntoChunks text).flatMap fun c => rawResults patterns c.text c.offset

/-- C8 (amended): for every pattern set and every non-empty input shorter
than 10000 bytes, the forced parallel path produces exactly the direct path's
pre-deduplication matches (such an input forms a single chunk at offset 0, so
even the chunk-relative line numbers coincide).  For the empty input the two
paths differ, see the counterexample. -/
theorem direct_parallel_raw_eq (patterns : List (String × GoRegex)) (text : GoStr)
    (hne : text ≠ []) (hlen : text.length < 10000) :
    parallelRaw patterns text = directRaw patterns text := by
  have h0 : 0 < text.length := List.length_pos.mpr hne
  have hchunks : splitIntoChunks text = [{ text := text, offset := 0 }] := by
    rw [splitIntoChunks, splitFrom_of_lt text 0 h0,
      splitFrom_of_ge text (chunkSize + 0) (by rw [chunkSize]; omega)]
    rw [List.drop_zero, List.take_of_length_le (by rw [chunkSize]; omega)]
  rw [parallelRaw, hchunks, directRaw]
  simp

/-- C8 counterexample: on the empty input with the empty pattern source
registered, the direct path finds one (empty) match while the parallel path,
having no chunks, finds none: the two match sets differ. -/
theorem direct_parallel_raw_cex :
    parallelRaw [("e", emptyRegex)] [] = [] ∧
    directRaw [("e", emptyRegex)] [] = [matchResult "e" [] 0 (0, 0)] ∧
    ([] : List Result) ≠ [matchResult "e" [] 0 (0, 0)] := by
  refine ⟨?_, rfl, by simp⟩
  rw [parallelRaw, splitIntoChunks, splitFrom_of_ge [] 0 (by simp)]
  rfl

/-- Witness for the amended C8 on a concrete input. -/
theorem direct_parallel_raw_eq_witness :
    parallelRaw [("e", emptyRegex)] ['a'] = directRaw [("e", emptyRegex)] ['a'] :=
  direct_parallel_raw_eq [("e", emptyRegex)] ['a'] (by simp) (by norm_num)

/-- The concrete two-chunk split of a 10001-byte input. -/
theorem splitIntoChunks_replicate :
    splitIntoChunks (List.replicate 10001 'a') =
      [{ text := List.replicate 10000 'a', offset := 0 },
       { text := List.replicate 1 'a', offset := 10000 }] := by
  rw [splitIntoChunks,
    splitFrom_of_lt _ 0 (by rw [List.length_replicate]; omega),
    splitFrom_of_lt _ (chunkSize + 0) (by rw [List.length_replicate, chunkSize]; omega),
    splitFrom_of_ge _ (chunkSize + (chunkSize + 0)) (by rw [List.length_replicate, chunkSize]; omega)]
  rw [chunkSize, List.drop_zero, List.take_replicate,
    show (10000 + 0 : Nat) = 10000 from rfl, List.drop_replicate, List.take_replicate,
    show min 10000 10001 = 10000 from by omega,
    show (10001 - 10000 : Nat) = 1 from by omega,
    show min 10000 1 = 1 from by omega]

/-- Witness for C9 on a concrete 10001-byte input split into two chunks. -/
theorem splitIntoChunks_spec_witness :
    ({ text := List.replicate 10000 'a', offset := 0 } : Chunk) ∈
        splitIntoChunks (List.replicate 10001 'a') ∧
    ({ text := List.replicate 10000 'a', offset := 0 } : Chunk) ∈
        (splitIntoChunks (List.replicate 10001 'a')).dropLast ∧
    (List.replicate 10000 'a' : GoStr) =
      slice (List.replicate 10001 'a') 0 (0 + 10000) ∧
    ({ text := List.replicate 10000 'a', offset := 0 } : Chunk).text.length = 10000 := by
  have h := splitIntoChunks_spec (List.replicate 10001 'a')
  have hmem : ({ text := List.replicate 10000 'a', offset := 0 } : Chunk) ∈
      splitIntoChunks (List.replicate 10001 'a') := by
    rw [splitIntoChunks_replicate]
    exact List.mem_cons_self _ _
  have hmem2 : ({ text := List.replicate 10000 'a', offset := 0 } : Chunk) ∈
      (splitIntoChunks (List.replicate 10001 'a')).dropLast := by
    rw [splitIntoChunks_replicate, List.dropLast_cons₂]
    exact List.mem_cons_self _ _
  have h5 := (h.2.1 _ hmem).2
  have h6 := h.2.2.1 _ hmem2
  dsimp only at h5
  rw [List.length_replicate] at h5
  exact ⟨hmem, hmem2, h5, h6⟩

/-! ### Entropy and likelihood scorer (`patterns` package)

Here strings are Lean `String`s: iterating a Go string yields its runes
(`String.data`), while Go's `len` is the byte length (`String.utf8ByteSize`).
-/

/-- One step of `CalculateEntropy`'s counting loop (`charCount[c]++`), on the
rune-count map modelled as an association list in first-occurrence order. -/
def bumpCount : List (Char × Nat) → Char → List (Char × Nat)
  | [], c => [(c, 1)]
  | (c', n) :: rest, c =>
      if c' = c then (c', n + 1) :: rest else (c', n) :: bumpCount rest c

/-- The rune-count map of `CalculateEntropy` (`charCount`). -/
def charCounts (s : List Char) : List (Char × Nat) := s.foldl bumpCount []

/-- `CalculateEntropy`: 0 when `len(s) == 0`, otherwise the loop
`entropy -= freq * math.Log2(freq)` over the rune counts, with
`freq = count / length` and `length = float64(len(s))` the byte length. -/
noncomputable def CalculateEntropy (s : String) : ℝ :=
  if s.utf8ByteSize = 0 then 0
  else
    (charCounts s.data).foldl
      (fun entropy p =>
        entropy - (p.2 : ℝ) / (s.utf8ByteSize : ℝ) *
          Real.logb 2 ((p.2 : ℝ) / (s.utf8ByteSize : ℝ))) 0

/-- The specification formula for the entropy of a non-empty string: the sum
over the distinct characters of `-p·log2 p` with `p = count/length`
(`length` being Go's `len`, the byte length). -/
noncomputable def shannonSpecEntropy (s : String) : ℝ :=
  ∑ c ∈ s.data.toFinset,
    -((s.data.count c : ℝ) / (s.utf8ByteSize : ℝ) *
      Real.logb 2 ((s.data.count c : ℝ) / (s.utf8ByteSize : ℝ)))

theorem foldl_sub_eq {α : Type} (f : α → ℝ) : ∀ (l : List α) (a : ℝ),
    l.foldl (fun e p => e - f p) a = a - (l.map f).sum := by
  intro l
  induction l with
  | nil => intro a; simp
  | cons x xs ih =>
    intro a
    simp only [List.foldl_cons, List.map_cons, List.sum_cons]
    rw [ih]
    ring

/-- Behaviour of one counting step: the key `c` is set to one more than its
current count (1 when absent), the other entries are untouched, and key
distinctness is preserved. -/
theorem bumpCount_spec (c : Char) : ∀ (acc : List (Char × Nat)),
    (acc.map Prod.fst).Nodup →
    ((bumpCount acc c).map Prod.fst).Nodup ∧
    (∀ e ∈ bumpCount acc c,
      (e.1 = c ∧ e.2 = (match acc.lookup c with | some n => n + 1 | none => 1)) ∨
      (e.1 ≠ c ∧ e ∈ acc)) ∧
    (∀ x : Char, x ∈ (bumpCount acc c).map Prod.fst ↔
      x = c ∨ x ∈ acc.map Prod.fst) := by
  intro acc
  induction acc with
  | nil =>
    intro _nd
    refine ⟨by simp [bumpCount], ?_, by simp [bumpCount]⟩
    intro e he
    rw [bumpCount] at he
    rw [List.mem_singleton.mp he]
    exact Or.inl ⟨rfl, rfl⟩
  | cons a rest ih =>
    obtain ⟨c', n⟩ := a
    intro hnd
    rw [List.map_cons, List.nodup_cons] at hnd
    by_cases hc : c' = c
    · subst hc
      rw [bumpCount, if_pos rfl]
      refine ⟨?_, ?_, ?_⟩
      · rw [List.map_cons, List.nodup_cons]
        exact hnd
      · intro e he
        rcases List.mem_cons.mp he with rfl | he2
        · exact Or.inl ⟨rfl, by rw [List.lookup_cons_self]⟩
        · refine Or.inr ⟨?_, List.mem_cons_of_mem _ he2⟩
          intro hec
          have hmm := List.mem_map_of_mem Prod.fst he2
          rw [hec] at hmm
          exact hnd.1 hmm
      · intro x
        simp only [List.map_cons, List.mem_cons]
        tauto
    · rw [bumpCount, if_neg hc]
      obtain ⟨bnd, bent, bkeys⟩ := ih hnd.2
      have hlk : ((c', n) :: rest : List (Char × Nat)).lookup c = rest.lookup c := by
        rw [List.lookup_cons]
        have hbeq : (c == c') = false := beq_eq_false_iff_ne.mpr fun h => hc h.symm
        rw [hbeq]
      refine ⟨?_, ?_, ?_⟩
      · rw [List.map_cons, List.nodup_cons]
        refine ⟨?_, bnd⟩
        intro hmem
        rcases (bkeys c').mp hmem with h1 | h1
        · exact hc h1
        · exact hnd.1 h1
      · intro e he
        rcases List.mem_cons.mp he with rfl | he2
        · exact Or.inr ⟨hc, List.mem_cons_self _ _⟩
        · rcases bent e he2 with ⟨h1, h2⟩ | ⟨h1, h2⟩
          · rw [hlk]
            exact Or.inl ⟨h1, h2⟩
          · exact Or.inr ⟨h1, List.mem_cons_of_mem _ h2⟩
      · intro x
        simp only [List.map_cons, List.mem_cons, bkeys x]
        tauto

/-- Correctness of the whole counting loop: distinct keys, each entry holds
its character's count in `s`, and the keys are exactly the characters
of `s`. -/
theorem charCounts_spec (s : List Char) :
    ((charCounts s).map Prod.fst).Nodup ∧
    (∀ e ∈ charCounts s, e.2 = s.count e.1) ∧
    (∀ c : Char, c ∈ s ↔ c ∈ (charCounts s).map Prod.fst) := by
  induction s using List.reverseRecOn with
  | nil => simp [charCounts]
  | append_singleton s c ih =>
    obtain ⟨hnd, hval, hmem⟩ := ih
    have hstep : charCounts (s ++ [c]) = bumpCount (charCounts s) c := by
      rw [charCounts, charCounts, List.foldl_append, List.foldl_cons, List.foldl_nil]
    obtain ⟨bnd, bent, bkeys⟩ := bumpCount_spec c (charCounts s) hnd
    rw [hstep]
    refine ⟨bnd, ?_, ?_⟩
    · intro e he
      rcases bent e he with ⟨h1, h2⟩ | ⟨h1, h2⟩
      · rw [h1, List.count_append]
        cases hl : (charCounts s).lookup c with
        | none =>
          rw [hl] at h2
          have h2a : e.2 = 1 := h2
          have hcnotin : c ∉ s := by
            intro hcs
            obtain ⟨e', he', hke'⟩ := List.mem_map.mp ((hmem c).mp hcs)
            have h3 := List.lookup_eq_none_iff.mp hl e' he'
            simp [hke'] at h3
          rw [h2a, List.count_eq_zero.mpr hcnotin]
          simp
        | some n =>
          rw [hl] at h2
          have h2a : e.2 = n + 1 := h2
          have he' := mem_of_lookup_eq_some hl
          have hv : n = List.count c s := hval (c, n) he'
          rw [h2a, ← hv]
          simp
      · have hv := hval e h2
        rw [hv, List.count_append]
        have hzero : List.count e.1 [c] = 0 := by
          rw [List.count_eq_zero]
          intro hmem2
          rw [List.mem_singleton] at hmem2
          exact h1 hmem2
        rw [hzero]
        omega
    · intro x
      rw [List.mem_append, List.mem_singleton, bkeys x, hmem x]
      tauto

theorem utf8ByteSize_pos {s : String} (h : s ≠ "") : 0 < s.utf8ByteSize := by
  cases s with
  | mk data =>
    cases data with
    | nil => exact absurd rfl h
    | cons c cs =>
      have h2 : String.utf8ByteSize ⟨c :: cs⟩ =
          String.utf8ByteSize.go cs + c.utf8Size := rfl
      rw [h2]
      have h3 := c.utf8Size_pos
      omega

/-- `CalculateEntropy` computes, for every non-empty string, exactly the
specification formula (the subtraction fold over the count map equals the sum
over the distinct characters). -/
theorem CalculateEntropy_eq_spec (s : String) (hs : s ≠ "") :
    CalculateEntropy s = shannonSpecEntropy s := by
  have hlen : s.utf8ByteSize ≠ 0 := Nat.pos_iff_ne_zero.mp (utf8ByteSize_pos hs)
  obtain ⟨hnd, hval, hmem⟩ := charCounts_spec s.data
  rw [CalculateEntropy, if_neg hlen, foldl_sub_eq, shannonSpecEntropy]
  rw [Finset.sum_neg_distrib, zero_sub, neg_inj]
  have hfs : s.data.toFinset = ((charCounts s.data).map Prod.fst).toFinset := by
    ext x
    simp only [List.mem_toFinset]
    exact hmem x
  rw [hfs, List.sum_toFinset _ hnd, List.map_map]
  refine congrArg List.sum (List.map_congr_left ?_)
  intro e he
  have hv := hval e he
  simp only [Function.comp]
  rw [hv]

theorem CalculateEntropy_empty : CalculateEntropy "" = 0 := by
  have h0 : "".utf8ByteSize = 0 := rfl
  rw [CalculateEntropy, if_pos h0]

theorem entropy_low_eval : CalculateEntropy "aaaaaaaaaa" = 0 := by
  have hbs : "aaaaaaaaaa".utf8ByteSize = 10 := rfl
  have hcc : charCounts "aaaaaaaaaa".data = [('a', 10)] := rfl
  rw [CalculateEntropy, hbs, hcc, if_neg (by norm_num), foldl_sub_eq]
  simp only [List.map_cons, List.map_nil, List.sum_cons, List.sum_nil]
  push_cast
  norm_num [Real.logb_one]

theorem entropy_high_eval : CalculateEntropy "aB3$xK9#mP" = Real.logb 2 10 := by
  have hbs : "aB3$xK9#mP".utf8ByteSize = 10 := rfl
  have hcc : charCounts "aB3$xK9#mP".data =
      [('a', 1), ('B', 1), ('3', 1), ('$', 1), ('x', 1),
       ('K', 1), ('9', 1), ('#', 1), ('m', 1), ('P', 1)] := rfl
  rw [CalculateEntropy, hbs, hcc, if_neg (by norm_num), foldl_sub_eq]
  simp only [List.map_cons, List.map_nil, List.sum_cons, List.sum_nil]
  push_cast
  rw [show (1 : ℝ)/10 = (10 : ℝ)⁻¹ by norm_num, Real.logb_inv]
  ring

/-- C5: `CalculateEntropy` returns 0 on the empty string; on every non-empty
string it returns the Shannon entropy in bits of the character counts over
the string's byte length (the `-p·log2 p` sum of the specification); and in
particular the all-equal string "aaaaaaaaaa" has strictly lower entropy than
"aB3$xK9#mP". -/
theorem CalculateEntropy_spec :
    CalculateEntropy "" = 0 ∧
    (∀ s : String, s ≠ "" → CalculateEntropy s = shannonSpecEntropy s) ∧
    CalculateEntropy "aaaaaaaaaa" < CalculateEntropy "aB3$xK9#mP" := by
  refine ⟨CalculateEntropy_empty, fun s hs => CalculateEntropy_eq_spec s hs, ?_⟩
  rw [entropy_low_eval, entropy_high_eval]
  exact Real.logb_pos (by norm_num) (by norm_num)

/-- Witness for C5's non-emptiness hypothesis at a concrete string. -/
theorem CalculateEntropy_spec_witness :
    ("ab" : String) ≠ "" ∧ CalculateEntropy "ab" = shannonSpecEntropy "ab" :=
  ⟨by decide, CalculateEntropy_spec.2.1 "ab" (by decide)⟩

/-- The `commonWords` list of `IsLikelySecret`. -/
def commonWords : List String := ["password", "secret", "key", "token"]

/-- `strings.ToLower` (character-wise lowercasing; all comparisons below are
against ASCII words, on which this is its exact action). -/
def goToLower (s : String) : String := ⟨s.data.map Char.toLower⟩

/-- `strings.ContainsAny(s, chars)`: does `s` contain any character of
`chars`? -/
def containsAny (s chars : String) : Bool :=
  s.data.any fun c => chars.data.contains c

/-- The character-class count of `IsLikelySecret`
(hasUpper, hasLower, hasDigit, hasSpecial). -/
def characterTypes (s : String) : Nat :=
  (if containsAny s "ABCDEFGHIJKLMNOPQRSTUVWXYZ" then 1 else 0) +
    (if containsAny s "abcdefghijklmnopqrstuvwxyz" then 1 else 0) +
    (if containsAny s "0123456789" then 1 else 0) +
    (if containsAny s "!@#$%^&*()_+-=[]\x7b\x7d|;:,.<>?" then 1 else 0)

/-- `IsLikelySecret(s, entropyThreshold)` returns true exactly when all its
sequential checks pass: byte length within [8, 100], lowercase form not one
of the common words, entropy not below the threshold, and at least 3 of the
4 character classes present. -/
def IsLikelySecret (s : String) (entropyThreshold : ℝ) : Prop :=
  8 ≤ s.utf8ByteSize ∧ s.utf8ByteSize ≤ 100 ∧
  goToLower s ∉ commonWords ∧
  ¬ CalculateEntropy s < entropyThreshold ∧
  3 ≤ characterTypes s

theorem entropy_password_eval :
    CalculateEntropy "MyP@ssw0rd123!" = 6/7 + Real.logb 2 7 := by
  have hbs : "MyP@ssw0rd123!".utf8ByteSize = 14 := rfl
  have hcc : charCounts "MyP@ssw0rd123!".data =
      [('M', 1), ('y', 1), ('P', 1), ('@', 1), ('s', 2), ('w', 1), ('0', 1),
       ('r', 1), ('d', 1), ('1', 1), ('2', 1), ('3', 1), ('!', 1)] := rfl
  rw [CalculateEntropy, hbs, hcc, if_neg (by norm_num), foldl_sub_eq]
  simp only [List.map_cons, List.map_nil, List.sum_cons, List.sum_nil]
  push_cast
  rw [show (1 : ℝ)/14 = (14 : ℝ)⁻¹ by norm_num,
    show (2 : ℝ)/14 = (7 : ℝ)⁻¹ by norm_num,
    Real.logb_inv, Real.logb_inv,
    show (14 : ℝ) = 2 * 7 by norm_num,
    Real.logb_mul (by norm_num) (by norm_num),
    Real.logb_self_eq_one (by norm_num)]
  ring

theorem logb_two_seven_ge : (37 : ℝ)/14 ≤ Real.logb 2 7 := by
  rw [Real.logb, le_div_iff (Real.log_pos (by norm_num))]
  have h1 : Real.log ((2 : ℝ) ^ (37 : ℕ)) ≤ Real.log ((7 : ℝ) ^ (14 : ℕ)) := by
    rw [Real.log_le_log_iff (by positivity) (by positivity)]
    norm_num
  rw [Real.log_pow, Real.log_pow] at h1
  push_cast at h1
  linarith

/-- C6: `IsLikelySecret` rejects strings of byte length below 8 or above 100,
rejects exact common words (by lowercase form), rejects entropy below the
threshold, and otherwise accepts exactly when at least 3 of the 4 character
classes are present; in particular it rejects "password", rejects every
string of (byte) length 6, and accepts "MyP@ssw0rd123!" at threshold 3.5. -/
theorem IsLikelySecret_spec (s : String) (t : ℝ) :
    (s.utf8ByteSize < 8 ∨ 100 < s.utf8ByteSize → ¬ IsLikelySecret s t) ∧
    (goToLower s ∈ commonWords → ¬ IsLikelySecret s t) ∧
    (CalculateEntropy s < t → ¬ IsLikelySecret s t) ∧
    (8 ≤ s.utf8ByteSize → s.utf8ByteSize ≤ 100 → goToLower s ∉ commonWords →
      ¬ CalculateEntropy s < t → (IsLikelySecret s t ↔ 3 ≤ characterTypes s)) ∧
    ¬ IsLikelySecret "password" t ∧
    (s.utf8ByteSize = 6 → ¬ IsLikelySecret s t) ∧
    IsLikelySecret "MyP@ssw0rd123!" (3.5 : ℝ) := by
  refine ⟨?_, ?_, ?_, ?_, ?_, ?_, ?_⟩
  · intro hlen h
    obtain ⟨h1, h2, -⟩ := h
    omega
  · intro hw h
    exact h.2.2.1 hw
  · intro he h
    exact h.2.2.2.1 he
  · intro h1 h2 h3 h4
    constructor
    · intro h
      exact h.2.2.2.2
    · intro h5
      exact ⟨h1, h2, h3, h4, h5⟩
  · intro h
    exact h.2.2.1 (by decide)
  · intro h6 h
    obtain ⟨h1, -⟩ := h
    omega
  · refine ⟨by decide, by decide, by decide, ?_, by decide⟩
    rw [not_lt, entropy_password_eval]
    have h7 := logb_two_seven_ge
    have h8 : (3.5 : ℝ) = 7/2 := by norm_num
    rw [h8]
    linarith

/-- Witness for C6 at concrete strings. -/
theorem IsLikelySecret_spec_witness :
    ("abcdef" : String).utf8ByteSize = 6 ∧ ¬ IsLikelySecret "abcdef" (3.5 : ℝ) ∧
    IsLikelySecret "MyP@ssw0rd123!" (3.5 : ℝ) := by
  have h := IsLikelySecret_spec "abcdef" (3.5 : ℝ)
  exact ⟨rfl, h.2.2.2.2.2.1 rfl, h.2.2.2.2.2.2⟩

end SecretScan
